import Mathlib

/-!
Verification of the FMOD constant-generator script
(`src/main/resources/fmod/macos/generate_fmod_constants.py`).

The script is embedded shallowly over `List Char` (header text is a list of
characters, exactly the character sequence Python iterates over).  Helper
functions model the Python string operations and the concrete regular
expressions appearing in the script.  Fallible code (Python code that can
raise an uncaught exception) is modelled with `Option`: `none` means the
Python function raises.

Tables are insertion-ordered association lists, matching Python 3.7+ `dict`
semantics: assigning to an existing key updates the value in place and keeps
the key's original position.
-/

set_option maxRecDepth 8192
set_option maxHeartbeats 1000000

namespace FmodGen

/-- Characters stripped by Python `str.strip()` / matched by `\s` (ASCII). -/
def isPySpace (c : Char) : Bool :=
  c = ' ' || c = '\t' || c = '\n' || c = '\r' || c = '\x0b' || c = '\x0c'

/-- Python `str.strip()`: remove leading and trailing whitespace. -/
def pyStrip (l : List Char) : List Char :=
  ((l.dropWhile isPySpace).reverse.dropWhile isPySpace).reverse

/-- Python `str.split(sep)` for a single-character separator. -/
def pySplit (sep : Char) : List Char → List (List Char)
  | [] => [[]]
  | c :: cs =>
    if c = sep then [] :: pySplit sep cs
    else
      match pySplit sep cs with
      | h :: t => (c :: h) :: t
      | [] => [[c]]

/-- Python `line.rstrip(',')`: remove every trailing comma. -/
def rstripComma (l : List Char) : List Char :=
  (l.reverse.dropWhile (fun c => c = ',')).reverse

/-- Model of `re.sub(r'//.*', '', line)`: drop everything from the first
`//` to the end of the (single) line. -/
def rlc : List Char → List Char
  | [] => []
  | c :: cs =>
    if c = '/' ∧ cs.head? = some '/' then []
    else c :: rlc cs

/-- Scan for the first `*/` and return the suffix after it (used by the
non-greedy block-comment regex). -/
def cutClose : List Char → Option (List Char)
  | [] => none
  | c :: cs =>
    if c = '*' ∧ cs.head? = some '/' then some cs.tail
    else cutClose cs

/-- Fuel-driven worker for `rbc`; the fuel only needs to exceed the input
length, every step consumes at least one character. -/
def rbcAux : Nat → List Char → List Char
  | 0, l => l
  | _ + 1, [] => []
  | fuel + 1, c :: cs =>
    if c = '/' ∧ cs.head? = some '*' then
      match cutClose cs.tail with
      | some rest => rbcAux fuel rest
      | none => c :: rbcAux fuel cs
    else c :: rbcAux fuel cs

/-- Model of `re.sub(r'/\*.*?\*/', '', line)`: remove every non-greedy
`/* ... */` span, scanning left to right. -/
def rbc (l : List Char) : List Char :=
  rbcAux (l.length + 1) l

/-- The two comment-stripping substitutions, the comma rstrip and the final
strip applied to an already stripped member line (lines 30–32 of the
script). -/
def cleanB (l : List Char) : List Char :=
  pyStrip (rstripComma (rbc (rlc l)))

/-- Python `suffix in`-style `str.endswith`. -/
def pyEndsWith (l suf : List Char) : Bool :=
  suf.isSuffixOf l

/-- Substring test (Python `sub in s`). -/
def containsSub (pat : List Char) : List Char → Bool
  | [] => pat.isPrefixOf ([] : List Char)
  | c :: cs => pat.isPrefixOf (c :: cs) || containsSub pat cs

/-- Python `value_str.split('<<')` (two-character separator, non-overlapping,
left to right). -/
def splitLtLt : List Char → List (List Char)
  | '<' :: '<' :: r => [] :: splitLtLt r
  | [] => [[]]
  | c :: cs =>
    match splitLtLt cs with
    | h :: t => (c :: h) :: t
    | [] => [[c]]

/-! Model of Python `int(s, base)` for bases 10 and 16 (ASCII input):
surrounding whitespace, an optional sign, for base 16 an optional `0x`/`0X`
prefix (an underscore may follow the prefix), then at least one digit with
single underscores allowed between digits. -/

/-- Hexadecimal digit test. -/
def isHexDigitC (c : Char) : Bool :=
  c.isDigit || (decide ('a' ≤ c) && decide (c ≤ 'f')) || (decide ('A' ≤ c) && decide (c ≤ 'F'))

/-- Digit test for the given base (only 10 and 16 are used). -/
def isDigitB (base : Nat) (c : Char) : Bool :=
  if base = 16 then isHexDigitC c else c.isDigit

/-- Numeric value of a digit character. -/
def digitVal (c : Char) : Nat :=
  if c.isDigit then c.toNat - 48
  else if decide ('a' ≤ c) && decide (c ≤ 'f') then c.toNat - 87
  else c.toNat - 55

/-- Digits after the first one: single underscores are allowed only between
digits. -/
def digitsChunk (base : Nat) (acc : Nat) : List Char → Option Nat
  | [] => some acc
  | '_' :: c :: r =>
    if isDigitB base c then digitsChunk base (acc * base + digitVal c) r else none
  | '_' :: [] => none
  | c :: r =>
    if isDigitB base c then digitsChunk base (acc * base + digitVal c) r else none

/-- A digit run must start with a digit. -/
def digitsStart (base : Nat) : List Char → Option Nat
  | [] => none
  | c :: r => if isDigitB base c then digitsChunk base (digitVal c) r else none

/-- Unsigned part of `int(s, base)` (after sign removal). -/
def pyIntCore (base : Nat) (l : List Char) : Option Nat :=
  if base = 16 then
    match l with
    | '0' :: 'x' :: '_' :: r => digitsStart 16 r
    | '0' :: 'x' :: r => digitsStart 16 r
    | '0' :: 'X' :: '_' :: r => digitsStart 16 r
    | '0' :: 'X' :: r => digitsStart 16 r
    | _ => digitsStart 16 l
  else digitsStart 10 l

/-- Model of Python `int(s, base)`; `none` models `ValueError`. -/
def pyInt (base : Nat) (s : List Char) : Option Int :=
  match pyStrip s with
  | '+' :: r => (pyIntCore base r).map Int.ofNat
  | '-' :: r => (pyIntCore base r).map (fun n => -(Int.ofNat n))
  | r => (pyIntCore base r).map Int.ofNat

/-- A symbol table: insertion-ordered name → value mapping. -/
abbrev Table := List (List Char × Int)

/-- Python `dict` assignment `d[k] = v`: update in place if the key exists
(keeping its position), otherwise append. -/
def dinsert : Table → List Char → Int → Table
  | [], k, v => [(k, v)]
  | (k', v') :: t, k, v =>
    if k' = k then (k, v) :: t else (k', v') :: dinsert t k v

/-- Python `d[k]` / `k in d` lookup. -/
def lookupC : Table → List Char → Option Int
  | [], _ => none
  | (k, v) :: t, n => if k = n then some v else lookupC t n

/-- Keys of a table. -/
def keysOf (t : Table) : List (List Char) :=
  t.map Prod.fst

/-- Lines 60–62 of the script: record the member unless the name is empty or
ends in `FORCEINT`; the counter becomes the recorded value plus one exactly
when the member is recorded. -/
def recordStep (t : Table) (name : List Char) (cv : Int) : Table × Int :=
  if name ≠ [] ∧ pyEndsWith name ("FORCEINT".toList) = false then
    (dinsert t name cv, cv + 1)
  else (t, cv)

/-- One iteration of the member-line loop of `parse_enum` (lines 24–62).
`none` models an uncaught exception (`int` raising `ValueError`, or the
tuple unpacking of `split('<<')` failing). -/
def processLine (st : Table × Int) (raw : List Char) : Option (Table × Int) :=
  let line := pyStrip raw
  if line = [] ∨ ("//".toList).isPrefixOf line ∨ ("/*".toList).isPrefixOf line then
    some st
  else
    let line := cleanB line
    if line = [] ∨ line = ['}'] then
      some st
    else if '=' ∈ line then
      let parts := pySplit '=' line
      let name := pyStrip (parts.getD 0 [])
      let vs := pyStrip (parts.getD 1 [])
      if ("0x".toList).isPrefixOf vs then
        match pyInt 16 vs with
        | some v => some (recordStep st.1 name v)
        | none => none
      else if containsSub ("<<".toList) vs then
        match splitLtLt vs with
        | [b, s] =>
          match pyInt 10 (pyStrip b), pyInt 10 (pyStrip s) with
          | some bv, some sv =>
            if sv < 0 then none
            else some (recordStep st.1 name (bv * 2 ^ sv.toNat))
          | _, _ => none
        | _ => none
      else
        match pyInt 10 vs with
        | some v => some (recordStep st.1 name v)
        | none => some st
    else
      some (recordStep st.1 line st.2)

/-- The member-line loop over all lines of the enum body. -/
def processLines : Table × Int → List (List Char) → Option (Table × Int)
  | st, [] => some st
  | st, l :: ls =>
    match processLine st l with
    | none => none
    | some st' => processLines st' ls

/-- Characters before the first `}`, if any (the non-greedy `(.*?)\}`
capture). -/
def upToBrace : List Char → Option (List Char)
  | [] => none
  | c :: cs => if c = '}' then some [] else (upToBrace cs).map (c :: ·)

/-- Try the regex `typedef enum NAME\s*\{(.*?)\}` anchored at the start of
`l`, returning the captured body. -/
def matchEnumAt (name l : List Char) : Option (List Char) :=
  let pat := "typedef enum ".toList ++ name
  if pat.isPrefixOf l then
    match (l.drop pat.length).dropWhile isPySpace with
    | '{' :: r => upToBrace r
    | _ => none
  else none

/-- `re.search` for the enum pattern: leftmost position where the pattern
matches. -/
def findEnumBody (name : List Char) : List Char → Option (List Char)
  | [] => none
  | l@(_ :: rest) =>
    match matchEnumAt name l with
    | some b => some b
    | none => findEnumBody name rest

/-- `parse_enum(header_content, enum_name)` (lines 12–64 of the script).
`none` models an uncaught exception while processing a member line; when the
enum construct is not found the result is the empty table. -/
def parse_enum (header_content enum_name : List Char) : Option Table :=
  match findEnumBody enum_name header_content with
  | none => some []
  | some body => (processLines ([], 0) (pySplit '\n' body)).map Prod.fst

/-! ## `parse_defines` (lines 66–82 of the script)

The regex `#define\s+(PFX\w+)\s+(0x[0-9A-Fa-f]+|\d+)` is modelled by a
deterministic matcher: every character class in the pattern is disjoint from
the character that follows it (whitespace vs. word characters vs. literals),
so greedy matching with backtracking coincides with maximal munch.  The
model is faithful for name patterns that, like every pattern the script
uses, start with a non-whitespace word character. -/

/-- Python `\w` (ASCII). -/
def isWordChar (c : Char) : Bool :=
  c.isAlphanum || c = '_'

/-- Value of a digit list (most significant first). -/
def digitsToNat (base : Nat) (l : List Char) : Nat :=
  l.foldl (fun acc c => acc * base + digitVal c) 0

/-- Try the `#define` regex anchored at the start of `l`; on success return
the captured name, the parsed value (the script converts the captured
literal immediately) and the unconsumed suffix. -/
def matchDefineAt (pfx l : List Char) : Option (List Char × Int × List Char) :=
  if ¬ ("#define".toList).isPrefixOf l then none
  else
    let r1 := l.drop 7
    match r1 with
    | [] => none
    | c :: _ =>
      if ¬ isPySpace c then none
      else
        let r2 := r1.dropWhile isPySpace
        if ¬ pfx.isPrefixOf r2 then none
        else
          let r3 := r2.drop pfx.length
          let ws := r3.takeWhile isWordChar
          if ws = [] then none
          else
            let name := pfx ++ ws
            let r4 := r3.drop ws.length
            match r4 with
            | [] => none
            | c' :: _ =>
              if ¬ isPySpace c' then none
              else
                let r5 := r4.dropWhile isPySpace
                match r5 with
                | '0' :: 'x' :: r6 =>
                  let hx := r6.takeWhile isHexDigitC
                  if hx = [] then
                    -- the `0x…` alternative fails, but `\d+` matches the `0`
                    some (name, (0 : Int), 'x' :: r6)
                  else
                    some (name, ((digitsToNat 16 hx : Nat) : Int), r6.drop hx.length)
                | _ =>
                  let ds := r5.takeWhile Char.isDigit
                  if ds = [] then none
                  else some (name, ((digitsToNat 10 ds : Nat) : Int), r5.drop ds.length)

/-- `re.finditer`: scan left to right, resuming after each match.  Fuel is
the remaining text length plus one; every step consumes at least one
character. -/
def scanDefines (pfx : List Char) : Nat → List Char → List (List Char × Int)
  | 0, _ => []
  | _ + 1, [] => []
  | fuel + 1, l@(_ :: cs) =>
    match matchDefineAt pfx l with
    | some (n, v, rest) => (n, v) :: scanDefines pfx fuel rest
    | none => scanDefines pfx fuel cs

/-- `parse_defines(header_content, prefix)`: every regex match is written
into the dict in encounter order. -/
def parse_defines (header_content pfx : List Char) : Table :=
  (scanDefines pfx (header_content.length + 1) header_content).foldl
    (fun t nv => dinsert t nv.1 nv.2) []

/-! ## Categorizer and emitter (lines 153–238 of the script)

Only the category grouping, value formatting and member-line generation are
modelled; the surrounding Java class template is file templating outside the
core (spec §1).  Python's `sorted` over `dict` keys is an ascending
lexicographic sort by code point, modelled with an insertion sort; the
per-category member lists collect, in that sorted iteration order, exactly
the names the `elif` chain sends to the category. -/

/-- Lexicographic comparison of strings by code point. -/
def pyLe : List Char → List Char → Bool
  | [], _ => true
  | _ :: _, [] => false
  | a :: as, b :: bs => if a = b then pyLe as bs else decide (a < b)

/-- Insert into a sorted list. -/
def pyInsert (x : List Char) : List (List Char) → List (List Char)
  | [] => [x]
  | y :: ys => if pyLe x y then x :: y :: ys else y :: pyInsert x ys

/-- Python `sorted` on a list of strings. -/
def pySorted (l : List (List Char)) : List (List Char) :=
  l.foldr pyInsert []

/-- The fixed category order of the `categories` dict (lines 154–165). -/
def categoryOrder : List (List Char) :=
  ["Version".toList, "Result codes".toList, "FMOD_INITFLAGS".toList,
   "FMOD_MODE".toList, "FMOD_TIMEUNIT".toList,
   "FMOD_SYSTEM_CALLBACK_TYPE".toList, "FMOD_CHANNELMASK".toList,
   "FMOD_OUTPUTTYPE".toList, "FMOD_SPEAKERMODE".toList,
   "FMOD_SOUND_TYPE".toList]

/-- The `elif` chain of the categorization loop (lines 168–189); `none`
means the name is appended to no category. -/
def categoryOf (n : List Char) : Option (List Char) :=
  if n = "FMOD_VERSION".toList then none
  else if ("FMOD_OK".toList).isPrefixOf n ∨ ("FMOD_ERR_".toList).isPrefixOf n then
    some ("Result codes".toList)
  else if ("FMOD_INIT_".toList).isPrefixOf n then some ("FMOD_INITFLAGS".toList)
  else if ("FMOD_TIMEUNIT_".toList).isPrefixOf n then some ("FMOD_TIMEUNIT".toList)
  else if ("FMOD_SYSTEM_CALLBACK_".toList).isPrefixOf n then
    some ("FMOD_SYSTEM_CALLBACK_TYPE".toList)
  else if ("FMOD_CHANNELMASK_".toList).isPrefixOf n then some ("FMOD_CHANNELMASK".toList)
  else if ("FMOD_OUTPUTTYPE_".toList).isPrefixOf n then some ("FMOD_OUTPUTTYPE".toList)
  else if ("FMOD_SPEAKERMODE_".toList).isPrefixOf n then some ("FMOD_SPEAKERMODE".toList)
  else if ("FMOD_SOUND_TYPE_".toList).isPrefixOf n then some ("FMOD_SOUND_TYPE".toList)
  else if ("FMOD_".toList).isPrefixOf n then some ("FMOD_MODE".toList)
  else none

/-- Member names of one category after the categorization loop:
`Version` is preset to `['FMOD_VERSION']` and the loop skips that name, so
it stays unchanged; every other category receives the matching names in
sorted iteration order. -/
def catMembers (table : Table) (cat : List Char) : List (List Char) :=
  if cat = "Version".toList then ["FMOD_VERSION".toList]
  else (pySorted (keysOf table)).filter (fun n => categoryOf n = some cat)

/-- Hexadecimal digits of a natural number, uppercase, most significant
first (fuel-driven so that it evaluates by kernel reduction). -/
def natHexAux : Nat → Nat → List Char
  | 0, _ => []
  | fuel + 1, n =>
    if n < 16 then [Nat.digitChar n |>.toUpper]
    else natHexAux fuel (n / 16) ++ [Nat.digitChar (n % 16) |>.toUpper]

/-- Uppercase hexadecimal digits of `n`. -/
def natHex (n : Nat) : List Char :=
  natHexAux (n + 1) n

/-- Decimal digits of a natural number. -/
def natDecAux : Nat → Nat → List Char
  | 0, _ => []
  | fuel + 1, n =>
    if n < 10 then [Nat.digitChar n]
    else natDecAux fuel (n / 10) ++ [Nat.digitChar (n % 10)]

/-- Decimal digits of `n`. -/
def natDec (n : Nat) : List Char :=
  natDecAux (n + 1) n

/-- Left padding with a character up to a width. -/
def padLeft (c : Char) (w : Nat) (l : List Char) : List Char :=
  List.replicate (w - l.length) c ++ l

/-- Model of the Python format `f"0x{value:08X}"` (for a negative value the
sign counts toward the zero-padded width, as in Python). -/
def pyHex8 (v : Int) : List Char :=
  if v < 0 then "0x".toList ++ '-' :: padLeft '0' 7 (natHex (-v).toNat)
  else "0x".toList ++ padLeft '0' 8 (natHex v.toNat)

/-- Model of Python `str(value)` for an integer. -/
def decStr (v : Int) : List Char :=
  if v < 0 then '-' :: natDec (-v).toNat else natDec v.toNat

/-- The bit-flag categories of the formatting branch (lines 222–223). -/
def flagCats : List (List Char) :=
  ["FMOD_MODE".toList, "FMOD_INITFLAGS".toList, "FMOD_TIMEUNIT".toList,
   "FMOD_SYSTEM_CALLBACK_TYPE".toList, "FMOD_CHANNELMASK".toList]

/-- The value-formatting branch of the emission loop (lines 217–228). -/
def formatValue (category : List Char) (value : Int) : List Char :=
  if (0x1000000 : Int) ≤ value then pyHex8 value
  else if (0x100 : Int) ≤ value then pyHex8 value
  else if category ∈ flagCats then pyHex8 value
  else decStr value

/-- One emitted member declaration (lines 230–234), including the special
hardcoded `// 2.03.09` annotation for `FMOD_VERSION`. -/
def declLine (cat n : List Char) (v : Int) : List Char :=
  "    static final int ".toList ++ n ++ " = ".toList ++ formatValue cat v ++
    (if n = "FMOD_VERSION".toList then "; // 2.03.09".toList else ";".toList)

/-- The lines contributed by one category (lines 206–236): nothing if the
configured member list is empty, otherwise a comment header, one
declaration per member present in the table, and a blank line. -/
def emitCat (table : Table) (cat : List Char) : List (List Char) :=
  let names := catMembers table cat
  if names = [] then []
  else
    ("    // ".toList ++ cat) ::
      (names.filterMap (fun n => (lookupC table n).map (declLine cat n))) ++ [[]]

/-- All member lines of the generated file, in category order. -/
def emitLines (table : Table) : List (List Char) :=
  categoryOrder.flatMap (emitCat table)

/-- The member lines of the categories after `Version`. -/
def emitTail (table : Table) : List (List Char) :=
  (categoryOrder.drop 1).flatMap (emitCat table)

/-- The emitted output viewed as ordered `(category, name, literal)`
triples (spec §6: the core's output contract). -/
def emitTriples (table : Table) : List (List Char × List Char × List Char) :=
  categoryOrder.flatMap (fun cat =>
    (catMembers table cat).filterMap (fun n =>
      (lookupC table n).map (fun v => (cat, n, formatValue cat v))))

/-! ## Auxiliary notions used by the theorem statements -/

/-- An ordinary C identifier character. -/
def plainChar (c : Char) : Bool :=
  c.isAlphanum || c = '_'

/-- An ordinary member identifier: nonempty and made of identifier
characters. -/
abbrev PlainName (n : List Char) : Prop :=
  n ≠ [] ∧ n.all plainChar = true

/-- A value expression token as it can appear to the right of `=` on a
member line: nonempty, no surrounding whitespace, not ending in a comma,
and containing no `=` or `/`. -/
abbrev ExprToken (vs : List Char) : Prop :=
  vs ≠ [] ∧ isPySpace (vs.headD 'x') = false ∧ isPySpace (vs.getLastD 'x') = false ∧
    vs.getLastD 'x' ≠ ',' ∧ '=' ∉ vs ∧ '/' ∉ vs

/-- A bare decimal literal token (all digits). -/
abbrev DigitToken (vs : List Char) : Prop :=
  vs ≠ [] ∧ vs.all Char.isDigit = true

/-- A bare hexadecimal or decimal integer literal in the sense of the spec
(`0x` followed by hex digits, or a plain digit string). -/
def isBareIntLiteral (l : List Char) : Bool :=
  match l with
  | '0' :: 'x' :: r => !r.isEmpty && r.all isHexDigitC
  | _ => !l.isEmpty && l.all Char.isDigit

/-- The value-formatting policy exactly as the spec words it: at or above
the medium threshold `0x100`, or in a bit-flag category, zero-padded
8-digit hexadecimal; otherwise plain decimal. -/
def specFormatValue (category : List Char) (value : Int) : List Char :=
  if (0x100 : Int) ≤ value ∨ category ∈ flagCats then pyHex8 value else decStr value

/-- The name a member line records when it carries no assignment token:
mirrors the skip checks of the loop, including the `FORCEINT` filter. -/
def lineName (raw : List Char) : Option (List Char) :=
  let line := pyStrip raw
  if line = [] ∨ ("//".toList).isPrefixOf line ∨ ("/*".toList).isPrefixOf line then none
  else
    let line := cleanB line
    if line = [] ∨ line = ['}'] then none
    else if pyEndsWith line ("FORCEINT".toList) then none
    else some line

/-- The recorded member names of an enum body, in declaration order
(assignment-free bodies only: `lineName` ignores `=`). -/
def memberNames (body : List Char) : List (List Char) :=
  (pySplit '\n' body).filterMap lineName

/-- Consecutive numbering of a list of names starting at `c`. -/
def numberFrom (c : Int) : List (List Char) → Table
  | [] => []
  | n :: ns => (n, c) :: numberFrom (c + 1) ns

/-- A member line carrying an explicit assignment: `NAME = EXPR`. -/
def mkAssign (n vs : List Char) : List Char :=
  n ++ ' ' :: '=' :: ' ' :: vs

/-! ## Claim C2: the spec's extraction scenario -/

/-- C2, counterexample.  On the exact header text of the scenario —
`typedef enum E_RESULT { E_OK, E_ERR_BAD = 5, E_ERR_WORSE } E_RESULT;`,
with the whole member list on a single line — `parse_enum` returns the
EMPTY table, not `{E_OK:0, E_ERR_BAD:5, E_ERR_WORSE:6}`: the body is split
on newlines, so the single line `E_OK, E_ERR_BAD = 5, E_ERR_WORSE` is
treated as one member with name `E_OK, E_ERR_BAD` and value expression
`5, E_ERR_WORSE`, whose decimal parse fails, so the member is skipped. -/
theorem c2_counterexample :
    parse_enum
      ("typedef enum E_RESULT \x7b E_OK, E_ERR_BAD = 5, E_ERR_WORSE \x7d E_RESULT;".toList)
      ("E_RESULT".toList) = some [] ∧
    parse_enum
      ("typedef enum E_RESULT \x7b E_OK, E_ERR_BAD = 5, E_ERR_WORSE \x7d E_RESULT;".toList)
      ("E_RESULT".toList) ≠
      some [("E_OK".toList, 0), ("E_ERR_BAD".toList, 5), ("E_ERR_WORSE".toList, 6)] := by
  constructor
  · decide
  · decide

/-- C2, amended: with the members on separate lines (as in the real
headers) the scenario's expected table is produced exactly. -/
theorem c2_amended :
    parse_enum
      ("typedef enum E_RESULT \x7b\n    E_OK,\n    E_ERR_BAD = 5,\n    E_ERR_WORSE\n\x7d E_RESULT;".toList)
      ("E_RESULT".toList) =
      some [("E_OK".toList, 0), ("E_ERR_BAD".toList, 5), ("E_ERR_WORSE".toList, 6)] := by
  decide

/-! ## Claim C1: failure semantics of `parse_enum` -/

/-- C1, counterexample.  `parse_enum` is NOT total on malformed member
values: a value expression that starts with `0x` but is not a valid
hexadecimal literal reaches `int(value_str, 16)` outside any
`try/except`, so the call raises `ValueError` (modelled by `none`)
instead of skipping the member. -/
theorem c1_counterexample :
    parse_enum ("typedef enum E \x7b\nA = 0xZ\n\x7d E;".toList) ("E".toList) = none := by
  decide

/-! ## Claim C8: non-literal macros in `parse_defines` -/

/-- C8, counterexample.  A macro whose defined value is not a bare integer
literal can still enter the table: the value regex is unanchored on the
right, so for `#define X_FOO 1+2` the alternative `\d+` matches the
leading `1` and `X_FOO` is recorded with value 1, although `1+2` is not a
bare hexadecimal or decimal integer literal. -/
theorem c8_counterexample :
    parse_defines ("#define X_FOO 1+2".toList) ("X_".toList) = [("X_FOO".toList, 1)] ∧
    isBareIntLiteral ("1+2".toList) = false := by
  constructor
  · decide
  · decide

/-- C8, amended: a macro whose value does not even BEGIN with an integer
literal — such as the spec's `#define X_FOO (1+2)`, whose value starts
with a parenthesis — produces no match at all, so the macro is absent
from the table. -/
theorem c8_amended :
    parse_defines ("#define X_FOO (1+2)".toList) ("X_".toList) = [] := by
  decide

/-! ## Claim C3: emission of the version symbol -/

/-- C3, counterexample.  `FMOD_VERSION` is formatted by the same
magnitude-based rules as every other symbol in the non-flag `Version`
category: with value 5 (below `0x100`) its emitted literal is the decimal
`5`, not a hexadecimal literal; and the version-string annotation is the
hardcoded text `2.03.09`, not derived from the value. -/
theorem c3_counterexample :
    emitLines [("FMOD_VERSION".toList, 5)] =
      ["    // Version".toList,
       "    static final int FMOD_VERSION = 5; // 2.03.09".toList, []] ∧
    ("0x".toList).isPrefixOf (formatValue ("Version".toList) 5) = false := by
  constructor
  · decide
  · decide

/-! ## Claim C4: the value-formatting policy -/

/-- C4: every emitted literal follows the formatting policy — a value at or
above `0x100` is zero-padded 8-digit hexadecimal, a smaller value is also
hexadecimal exactly when the category is one of the five bit-flag
categories, and otherwise the literal is plain decimal; in particular
`0x2000000` renders as `0x02000000` in every category, `5` renders as `5`
in a non-flag category and as `0x00000005` in a flag category. -/
theorem c4_format_policy :
    (∀ (cat : List Char) (v : Int), formatValue cat v = specFormatValue cat v) ∧
    (∀ cat : List Char, formatValue cat 0x2000000 = "0x02000000".toList) ∧
    formatValue ("FMOD_OUTPUTTYPE".toList) 5 = "5".toList ∧
    formatValue ("FMOD_MODE".toList) 5 = "0x00000005".toList := by
  refine ⟨?_, ?_, by decide, by decide⟩
  · intro cat v
    unfold formatValue specFormatValue
    by_cases h1 : (0x1000000 : Int) ≤ v
    · have h2 : (0x100 : Int) ≤ v := by omega
      simp [h1, h2]
    · by_cases h2 : (0x100 : Int) ≤ v
      · simp [h1, h2]
      · by_cases h3 : cat ∈ flagCats <;> simp [h1, h2, h3]
  · intro cat
    unfold formatValue
    rw [if_pos (by norm_num)]
    decide

/-! ## Character and string helper lemmas -/

theorem space_cases {c : Char} (h : isPySpace c = true) :
    c = ' ' ∨ c = '\t' ∨ c = '\n' ∨ c = '\r' ∨ c = '\x0b' ∨ c = '\x0c' := by
  have h2 := h
  simp only [isPySpace, Bool.or_eq_true, decide_eq_true_eq] at h2
  tauto

theorem plain_not_space {c : Char} (h : plainChar c = true) : isPySpace c = false := by
  cases hs : isPySpace c
  · rfl
  · rcases space_cases hs with rfl | rfl | rfl | rfl | rfl | rfl <;> exact absurd h (by decide)

theorem plain_not_special {c : Char} (h : plainChar c = true) :
    c ≠ '/' ∧ c ≠ ',' ∧ c ≠ '=' ∧ c ≠ '<' ∧ c ≠ '}' := by
  refine ⟨?_, ?_, ?_, ?_, ?_⟩ <;> rintro rfl <;> exact absurd h (by decide)

theorem digit_plain {c : Char} (h : c.isDigit = true) : plainChar c = true := by
  simp [plainChar, Char.isAlphanum, h]

theorem head?_mem {l : List Char} {a : Char} (h : l.head? = some a) : a ∈ l := by
  cases l with
  | nil => cases h
  | cons b t =>
    simp only [List.head?, Option.some.injEq] at h
    subst h
    exact List.mem_cons_self _ _

theorem getLast?_mem {l : List Char} {a : Char} (h : l.getLast? = some a) : a ∈ l := by
  rw [← List.head?_reverse] at h
  simpa using head?_mem h

theorem head?_eq_headD {l : List Char} (h : l ≠ []) : l.head? = some (l.headD 'x') := by
  cases l with
  | nil => exact absurd rfl h
  | cons a t => rfl

theorem getLast?_eq_getLastD {l : List Char} (h : l ≠ []) :
    l.getLast? = some (l.getLastD 'x') := by
  induction l with
  | nil => exact absurd rfl h
  | cons a t ih =>
    cases t with
    | nil => rfl
    | cons b t2 =>
      rw [List.getLast?_cons_cons, ih (by simp)]
      rfl

theorem dropWhile_eq_self_of_head {p : Char → Bool} {l : List Char}
    (h : ∀ a, l.head? = some a → p a = false) : l.dropWhile p = l := by
  cases l with
  | nil => rfl
  | cons a t => simp [List.dropWhile_cons, h a rfl]

theorem pyStrip_eq_self {l : List Char}
    (h1 : ∀ a, l.head? = some a → isPySpace a = false)
    (h2 : ∀ a, l.getLast? = some a → isPySpace a = false) : pyStrip l = l := by
  unfold pyStrip
  rw [dropWhile_eq_self_of_head h1,
    dropWhile_eq_self_of_head (fun a ha => h2 a (by rwa [List.head?_reverse] at ha)),
    List.reverse_reverse]

theorem all_plain_mem {n : List Char} (hall : n.all plainChar = true) {a : Char}
    (ha : a ∈ n) : plainChar a = true :=
  List.all_eq_true.mp hall a ha

theorem pyStrip_plain {n : List Char} (h : PlainName n) : pyStrip n = n := by
  refine pyStrip_eq_self (fun a ha => ?_) (fun a ha => ?_) <;>
    exact plain_not_space (all_plain_mem h.2 (by first | exact head?_mem ha | exact getLast?_mem ha))

theorem rlc_noop {l : List Char} (h : '/' ∉ l) : rlc l = l := by
  induction l with
  | nil => rfl
  | cons c cs ih =>
    have hc : c ≠ '/' := fun e => h (e ▸ List.mem_cons_self c cs)
    simp only [rlc]
    rw [if_neg (fun hand => hc hand.1), ih (fun hm => h (List.mem_cons_of_mem _ hm))]

theorem rbcAux_noop : ∀ (fuel : Nat) (l : List Char), '/' ∉ l → l.length < fuel →
    rbcAux fuel l = l := by
  intro fuel
  induction fuel with
  | zero => intro l _ hlen; exact absurd hlen (by omega)
  | succ fuel ih =>
    intro l h hlen
    cases l with
    | nil => rfl
    | cons c cs =>
      have hc : c ≠ '/' := fun e => h (e ▸ List.mem_cons_self c cs)
      simp only [rbcAux]
      rw [if_neg (fun hand => hc hand.1),
        ih cs (fun hm => h (List.mem_cons_of_mem _ hm)) (by simp at hlen; omega)]

theorem rbc_noop {l : List Char} (h : '/' ∉ l) : rbc l = l :=
  rbcAux_noop _ l h (Nat.lt_succ_self _)

theorem rstripComma_noop {l : List Char} (h : ∀ a, l.getLast? = some a → a ≠ ',') :
    rstripComma l = l := by
  unfold rstripComma
  rw [dropWhile_eq_self_of_head
    (fun a ha => decide_eq_false (h a (by rwa [List.head?_reverse] at ha))),
    List.reverse_reverse]

theorem cleanB_plain {n : List Char} (h : PlainName n) : cleanB n = n := by
  have hs : '/' ∉ n := fun hm => (plain_not_special (all_plain_mem h.2 hm)).1 rfl
  unfold cleanB
  rw [rlc_noop hs, rbc_noop hs,
    rstripComma_noop (fun a ha => (plain_not_special (all_plain_mem h.2 (getLast?_mem ha))).2.1),
    pyStrip_plain h]

theorem slash_prefix_false {l : List Char} {d : Char} (hd : l.head? = some d) (h : d ≠ '/') :
    ¬ (['/', '/'] <+: l) ∧ ¬ (['/', '*'] <+: l) := by
  cases l with
  | nil => cases hd
  | cons a t =>
    simp only [List.head?, Option.some.injEq] at hd
    subst hd
    constructor <;> exact fun hp => h ((List.cons_prefix_cons.mp hp).1.symm)

theorem pySplit_not_mem {sep : Char} : ∀ {l : List Char}, sep ∉ l → pySplit sep l = [l] := by
  intro l
  induction l with
  | nil => intro _; rfl
  | cons a as ih =>
    intro h
    have ha : a ≠ sep := fun e => h (e ▸ List.mem_cons_self a as)
    simp only [pySplit]
    rw [if_neg ha, ih (fun hm => h (List.mem_cons_of_mem _ hm))]

theorem pySplit_single {sep : Char} : ∀ {n r : List Char}, sep ∉ n → sep ∉ r →
    pySplit sep (n ++ sep :: r) = [n, r] := by
  intro n
  induction n with
  | nil =>
    intro r _ hr
    have hstep : pySplit sep (sep :: r) = [] :: pySplit sep r := by
      simp [pySplit]
    rw [List.nil_append, hstep, pySplit_not_mem hr]
  | cons a as ih =>
    intro r hn hr
    have ha : a ≠ sep := fun e => hn (e ▸ List.mem_cons_self a as)
    simp only [List.cons_append, pySplit, List.append_eq]
    rw [if_neg ha, ih (fun hm => hn (List.mem_cons_of_mem _ hm)) hr]

/-! ## Reduction lemmas for `processLine` on well-formed member lines -/

theorem processLine_plain {t : Table} {c : Int} {m : List Char} (hm : PlainName m) :
    processLine (t, c) m = some (recordStep t m c) := by
  obtain ⟨hne, hall⟩ := hm
  obtain ⟨d, hd⟩ : ∃ d, m.head? = some d := by
    cases m with
    | nil => exact absurd rfl hne
    | cons a l => exact ⟨a, rfl⟩
  have hdp : plainChar d = true := all_plain_mem hall (head?_mem hd)
  have hstrip : pyStrip m = m := pyStrip_plain ⟨hne, hall⟩
  have hpre := slash_prefix_false hd (plain_not_special hdp).1
  have hclean : cleanB m = m := cleanB_plain ⟨hne, hall⟩
  have heq : '=' ∉ m := fun hmem => (plain_not_special (all_plain_mem hall hmem)).2.2.1 rfl
  have hbrace : m ≠ ['}'] := by
    intro e
    subst e
    exact absurd (all_plain_mem hall (show '}' ∈ ['}'] by simp)) (by decide)
  simp only [processLine, hstrip, hclean]
  rw [if_neg (by simp [hne, hpre.1, hpre.2]), if_neg (by simp [hne, hbrace]), if_neg heq]

theorem processLine_assign {t : Table} {c : Int} {n vs : List Char}
    (hn : PlainName n) (hv : ExprToken vs) :
    processLine (t, c) (mkAssign n vs) =
      (if ("0x".toList).isPrefixOf vs then
        match pyInt 16 vs with
        | some v => some (recordStep t n v)
        | none => none
      else if containsSub ("<<".toList) vs then
        match splitLtLt vs with
        | [b, s] =>
          match pyInt 10 (pyStrip b), pyInt 10 (pyStrip s) with
          | some bv, some sv =>
            if sv < 0 then none else some (recordStep t n (bv * 2 ^ sv.toNat))
          | _, _ => none
        | _ => none
      else
        match pyInt 10 vs with
        | some v => some (recordStep t n v)
        | none => some (t, c)) := by
  obtain ⟨hne, hall⟩ := hn
  obtain ⟨hvne, hvh, hvl, hvc, hveq, hvsl⟩ := hv
  obtain ⟨d, hd⟩ : ∃ d, n.head? = some d := by
    cases n with
    | nil => exact absurd rfl hne
    | cons a l => exact ⟨a, rfl⟩
  have hdp : plainChar d = true := all_plain_mem hall (head?_mem hd)
  have hLhead : (mkAssign n vs).head? = some d := by
    rw [mkAssign, List.head?_append_of_ne_nil _ hne, hd]
  have hLlast : (mkAssign n vs).getLast? = some (vs.getLastD 'x') := by
    rw [mkAssign, List.getLast?_append_of_ne_nil _ (by simp),
      show (' ' :: '=' :: ' ' :: vs) = [' ', '=', ' '] ++ vs from rfl,
      List.getLast?_append_of_ne_nil _ hvne, getLast?_eq_getLastD hvne]
  have hLne : mkAssign n vs ≠ [] := by simp [mkAssign]
  have hslash : '/' ∉ mkAssign n vs := by
    intro hm
    rw [mkAssign] at hm
    rcases List.mem_append.mp hm with h | h
    · exact (plain_not_special (all_plain_mem hall h)).1 rfl
    · rcases List.mem_cons.mp h with h' | h'
      · exact absurd h' (by decide)
      · rcases List.mem_cons.mp h' with h2 | h2
        · exact absurd h2 (by decide)
        · rcases List.mem_cons.mp h2 with h3 | h3
          · exact absurd h3 (by decide)
          · exact hvsl h3
  have hstrip : pyStrip (mkAssign n vs) = mkAssign n vs := by
    refine pyStrip_eq_self (fun a ha => ?_) (fun a ha => ?_)
    · rw [hLhead] at ha
      obtain rfl := Option.some.inj ha.symm
      exact plain_not_space hdp
    · rw [hLlast] at ha
      obtain rfl := Option.some.inj ha.symm
      exact hvl
  have hpre := slash_prefix_false hLhead (plain_not_special hdp).1
  have hclean : cleanB (mkAssign n vs) = mkAssign n vs := by
    unfold cleanB
    rw [rlc_noop hslash, rbc_noop hslash,
      rstripComma_noop (fun a ha => by
        rw [hLlast] at ha
        obtain rfl := Option.some.inj ha.symm
        exact hvc), hstrip]
  have hmemEq : '=' ∈ mkAssign n vs := by simp [mkAssign]
  have hbrace : mkAssign n vs ≠ ['}'] := by
    intro e
    rw [e] at hLhead
    obtain rfl := Option.some.inj hLhead.symm
    exact absurd hdp (by decide)
  have hnotin1 : '=' ∉ n ++ [' '] := by
    intro hm
    rcases List.mem_append.mp hm with h | h
    · exact (plain_not_special (all_plain_mem hall h)).2.2.1 rfl
    · simp at h
  have hnotin2 : '=' ∉ ' ' :: vs := by
    intro hm
    rcases List.mem_cons.mp hm with h | h
    · exact absurd h (by decide)
    · exact hveq h
  have hsplit : pySplit '=' (mkAssign n vs) = [n ++ [' '], ' ' :: vs] := by
    rw [show mkAssign n vs = (n ++ [' ']) ++ '=' :: (' ' :: vs) by simp [mkAssign]]
    exact pySplit_single hnotin1 hnotin2
  have hname : pyStrip (n ++ [' ']) = n := by
    have h1 : List.dropWhile isPySpace (n ++ [' ']) = n ++ [' '] :=
      dropWhile_eq_self_of_head (fun a ha => by
        rw [List.head?_append_of_ne_nil _ hne, hd] at ha
        obtain rfl := Option.some.inj ha.symm
        exact plain_not_space hdp)
    have h2 : List.dropWhile isPySpace (' ' :: n.reverse) = n.reverse := by
      rw [List.dropWhile_cons, if_pos (by decide)]
      exact dropWhile_eq_self_of_head (fun a ha => by
        rw [List.head?_reverse] at ha
        exact plain_not_space (all_plain_mem hall (getLast?_mem ha)))
    unfold pyStrip
    rw [h1, List.reverse_append,
      show ([' '] : List Char).reverse ++ n.reverse = ' ' :: n.reverse from rfl,
      h2, List.reverse_reverse]
  have hvs2 : pyStrip (' ' :: vs) = vs := by
    have h1 : List.dropWhile isPySpace (' ' :: vs) = vs := by
      rw [List.dropWhile_cons, if_pos (by decide)]
      exact dropWhile_eq_self_of_head (fun a ha => by
        rw [head?_eq_headD hvne] at ha
        obtain rfl := Option.some.inj ha.symm
        exact hvh)
    have h2 : List.dropWhile isPySpace vs.reverse = vs.reverse :=
      dropWhile_eq_self_of_head (fun a ha => by
        rw [List.head?_reverse, getLast?_eq_getLastD hvne] at ha
        obtain rfl := Option.some.inj ha.symm
        exact hvl)
    unfold pyStrip
    rw [h1, h2, List.reverse_reverse]
  simp only [processLine, hstrip, hclean]
  rw [if_neg (by simp [hLne, hpre.1, hpre.2]), if_neg (by simp [hLne, hbrace]),
    if_pos hmemEq, hsplit]
  simp only [List.getD_cons_zero, List.getD_cons_succ, hname, hvs2]

/-! ## Digit-token facts -/

theorem headD_mem {l : List Char} (h : l ≠ []) : l.headD 'x' ∈ l :=
  head?_mem (head?_eq_headD h)

theorem getLastD_mem {l : List Char} (h : l ≠ []) : l.getLastD 'x' ∈ l :=
  getLast?_mem (getLast?_eq_getLastD h)

theorem digit_exprToken {vs : List Char} (h : DigitToken vs) : ExprToken vs := by
  obtain ⟨hne, hall⟩ := h
  have hh := List.all_eq_true.mp hall _ (headD_mem hne)
  have hl := List.all_eq_true.mp hall _ (getLastD_mem hne)
  exact ⟨hne, plain_not_space (digit_plain hh), plain_not_space (digit_plain hl),
    (plain_not_special (digit_plain hl)).2.1,
    fun hm => (plain_not_special (digit_plain (List.all_eq_true.mp hall _ hm))).2.2.1 rfl,
    fun hm => (plain_not_special (digit_plain (List.all_eq_true.mp hall _ hm))).1 rfl⟩

theorem digits_not_0x {vs : List Char} (hall : vs.all Char.isDigit = true) :
    ¬ ((['0', 'x'] : List Char) <+: vs) := by
  intro hp
  obtain ⟨t2, ht⟩ := hp
  have hx : 'x' ∈ vs := by rw [← ht]; simp
  exact absurd (List.all_eq_true.mp hall _ hx) (by decide)

theorem contains_ltlt_false {vs : List Char} (h : '<' ∉ vs) :
    containsSub ['<', '<'] vs = false := by
  induction vs with
  | nil => decide
  | cons c cs ih =>
    have hc : c ≠ '<' := fun e => h (e ▸ List.mem_cons_self c cs)
    have h1 : (['<', '<'] : List Char).isPrefixOf (c :: cs) = false := by
      cases hp : (['<', '<'] : List Char).isPrefixOf (c :: cs)
      · rfl
      · exfalso
        rw [List.isPrefixOf_iff_prefix] at hp
        exact hc ((List.cons_prefix_cons.mp hp).1.symm)
    simp only [containsSub, h1, Bool.false_or]
    exact ih (fun hm => h (List.mem_cons_of_mem _ hm))

theorem digits_not_ltlt {vs : List Char} (hall : vs.all Char.isDigit = true) :
    containsSub ['<', '<'] vs = false :=
  contains_ltlt_false (fun hm =>
    absurd (List.all_eq_true.mp hall _ hm) (by decide))

/-! ## Claim C6: explicit hex value and counter continuation -/

/-- C6: on any state, a member line `NAME = 0x10` (with an ordinary,
non-sentinel member name) is recorded with value 16 and sets the running
counter to 17, and an immediately following member line that is a bare
name is recorded with value 17 and moves the counter to 18: the implicit
counter continues from the last explicitly set value. -/
theorem c6_counter_continues (t : Table) (c : Int) (n m : List Char)
    (hn : PlainName n) (hnf : pyEndsWith n ("FORCEINT".toList) = false)
    (hm : PlainName m) (hmf : pyEndsWith m ("FORCEINT".toList) = false) :
    processLine (t, c) (mkAssign n ("0x10".toList)) = some (dinsert t n 16, 17) ∧
    processLine (dinsert t n 16, 17) m = some (dinsert (dinsert t n 16) m 17, 18) := by
  constructor
  · rw [processLine_assign hn (by decide), if_pos (by decide),
      show pyInt 16 ("0x10".toList) = some 16 by decide]
    simp only [recordStep]
    rw [if_pos ⟨hn.1, hnf⟩]
    norm_num
  · rw [processLine_plain hm]
    simp only [recordStep]
    rw [if_pos ⟨hm.1, hmf⟩]
    norm_num

/-- C6, witness at a concrete state. -/
theorem c6_witness :
    processLine ([], 0) (mkAssign ("FMOD_A".toList) ("0x10".toList)) =
      some ([("FMOD_A".toList, 16)], 17) ∧
    processLine ([("FMOD_A".toList, 16)], 17) ("FMOD_B".toList) =
      some ([("FMOD_A".toList, 16), ("FMOD_B".toList, 17)], 18) := by
  have h := c6_counter_continues [] 0 ("FMOD_A".toList) ("FMOD_B".toList)
    (by decide) (by decide) (by decide) (by decide)
  exact ⟨h.1.trans (by decide), h.2.trans (by decide)⟩

/-! ## Claim C10: a sentinel member with an explicit value -/

/-- C10: a `FORCEINT`-suffixed member line carrying an explicit parseable
decimal value `V` is not entered into the table, yet it sets the running
counter to `V` without consuming an increment, so an immediately following
bare member line is recorded with value `V`. -/
theorem c10_sentinel_sets_counter (t : Table) (c : Int) (n vs m : List Char) (V : Int)
    (hn : PlainName n) (hnf : pyEndsWith n ("FORCEINT".toList) = true)
    (hvdig : DigitToken vs) (hvV : pyInt 10 vs = some V)
    (hm : PlainName m) (hmf : pyEndsWith m ("FORCEINT".toList) = false) :
    processLine (t, c) (mkAssign n vs) = some (t, V) ∧
    processLine (t, V) m = some (dinsert t m V, V + 1) := by
  constructor
  · rw [processLine_assign hn (digit_exprToken hvdig),
      if_neg (by simp [digits_not_0x hvdig.2]),
      if_neg (by simp [digits_not_ltlt hvdig.2]), hvV]
    simp only [recordStep]
    rw [if_neg (fun hand => by
      have h2 : pyEndsWith n ("FORCEINT".toList) = false := hand.2
      rw [hnf] at h2
      cases h2)]
  · rw [processLine_plain hm]
    simp only [recordStep]
    rw [if_pos ⟨hm.1, hmf⟩]

/-- C10, witness at a concrete state. -/
theorem c10_witness :
    processLine ([], 0) (mkAssign ("FMOD_FORCEINT".toList) ("7".toList)) =
      some ([], 7) ∧
    processLine ([], 7) ("FMOD_B".toList) = some ([("FMOD_B".toList, 7)], 8) := by
  have h := c10_sentinel_sets_counter [] 0 ("FMOD_FORCEINT".toList) ("7".toList)
    ("FMOD_B".toList) 7 (by decide) (by decide) (by decide) (by decide) (by decide) (by decide)
  exact ⟨h.1, h.2.trans (by decide)⟩

/-! ## Claim C1, amended: which malformed expressions are skipped -/

/-- C1, amended: a member whose value expression does not start with `0x`,
contains no `<<`, and fails the decimal parse is skipped entirely — the
table and counter are unchanged — and extraction continues with the
remaining member lines.  (As `c1_counterexample` shows, expressions that
DO start with `0x` or contain `<<` but fail to parse raise instead.) -/
theorem c1_skip_continues (t : Table) (c : Int) (n vs : List Char)
    (rest : List (List Char))
    (hn : PlainName n) (hv : ExprToken vs)
    (h0x : ¬ ((['0', 'x'] : List Char) <+: vs))
    (hlt : containsSub ['<', '<'] vs = false)
    (hfail : pyInt 10 vs = none) :
    processLine (t, c) (mkAssign n vs) = some (t, c) ∧
    processLines (t, c) (mkAssign n vs :: rest) = processLines (t, c) rest := by
  have h1 : processLine (t, c) (mkAssign n vs) = some (t, c) := by
    rw [processLine_assign hn hv, if_neg (by simp [h0x]), if_neg (by simp [hlt]), hfail]
  exact ⟨h1, by simp [processLines, h1]⟩

/-- C1, witness: a symbolic-reference value expression is skipped and
processing continues with the next line. -/
theorem c1_witness :
    processLine ([], 0) (mkAssign ("FMOD_A".toList) ("FMOD_X".toList)) = some ([], 0) ∧
    processLines ([], 0) [mkAssign ("FMOD_A".toList) ("FMOD_X".toList), "FMOD_B".toList] =
      processLines ([], 0) ["FMOD_B".toList] :=
  c1_skip_continues [] 0 ("FMOD_A".toList) ("FMOD_X".toList) ["FMOD_B".toList]
    (by decide) (by decide) (by decide) (by decide) (by decide)

/-! ## Assignment-free lines: skip/record characterization -/

theorem processLine_skip {t : Table} {c : Int} {l : List Char}
    (heq : '=' ∉ cleanB (pyStrip l)) (h : lineName l = none) :
    processLine (t, c) l = some (t, c) := by
  unfold lineName at h
  unfold processLine
  by_cases h1 : pyStrip l = [] ∨ ("//".toList).isPrefixOf (pyStrip l) ∨
      ("/*".toList).isPrefixOf (pyStrip l)
  · rw [if_pos h1]
  · rw [if_neg h1]
    rw [if_neg h1] at h
    by_cases h2 : cleanB (pyStrip l) = [] ∨ cleanB (pyStrip l) = ['}']
    · rw [if_pos h2]
    · rw [if_neg h2]
      rw [if_neg h2] at h
      rw [if_neg heq]
      by_cases h3 : pyEndsWith (cleanB (pyStrip l)) ("FORCEINT".toList) = true
      · simp only [recordStep]
        rw [if_neg (fun hand => by
          have h4 := hand.2
          rw [h3] at h4
          cases h4)]
      · rw [if_neg h3] at h
        simp at h

theorem processLine_record {t : Table} {c : Int} {l nm : List Char}
    (heq : '=' ∉ cleanB (pyStrip l)) (h : lineName l = some nm) :
    processLine (t, c) l = some (dinsert t nm c, c + 1) := by
  unfold lineName at h
  unfold processLine
  by_cases h1 : pyStrip l = [] ∨ ("//".toList).isPrefixOf (pyStrip l) ∨
      ("/*".toList).isPrefixOf (pyStrip l)
  · rw [if_pos h1] at h
    simp at h
  · rw [if_neg h1]
    rw [if_neg h1] at h
    by_cases h2 : cleanB (pyStrip l) = [] ∨ cleanB (pyStrip l) = ['}']
    · rw [if_pos h2] at h
      simp at h
    · rw [if_neg h2]
      rw [if_neg h2] at h
      rw [if_neg heq]
      by_cases h3 : pyEndsWith (cleanB (pyStrip l)) ("FORCEINT".toList) = true
      · rw [if_pos h3] at h
        simp at h
      · rw [if_neg h3] at h
        obtain rfl := Option.some.inj h
        simp only [recordStep]
        rw [if_pos ⟨(not_or.mp h2).1, by simpa using h3⟩]

theorem dinsert_append {t : Table} {k : List Char} {v : Int} (h : k ∉ keysOf t) :
    dinsert t k v = t ++ [(k, v)] := by
  induction t with
  | nil => rfl
  | cons p t ih =>
    obtain ⟨k', v'⟩ := p
    have hk : k' ≠ k := by
      intro e
      subst e
      exact h (by simp [keysOf])
    simp only [dinsert]
    rw [if_neg hk, ih (fun hm => h (by
      simp only [keysOf, List.map_cons, List.mem_cons]
      exact Or.inr hm))]
    rfl

theorem processLines_members : ∀ (lines : List (List Char)) (t : Table) (c : Int),
    (∀ l ∈ lines, '=' ∉ cleanB (pyStrip l)) →
    (keysOf t ++ lines.filterMap lineName).Nodup →
    processLines (t, c) lines =
      some (t ++ numberFrom c (lines.filterMap lineName),
        c + (lines.filterMap lineName).length) := by
  intro lines
  induction lines with
  | nil =>
    intro t c _ _
    simp [processLines, numberFrom]
  | cons l ls ih =>
    intro t c hne hnd
    cases hl : lineName l with
    | none =>
      have hstep : processLine (t, c) l = some (t, c) :=
        processLine_skip (hne l (List.mem_cons_self _ _)) hl
      have hfm : (l :: ls).filterMap lineName = ls.filterMap lineName :=
        List.filterMap_cons_none hl
      simp only [processLines, hstep]
      rw [ih t c (fun x hx => hne x (List.mem_cons_of_mem _ hx)) (by rwa [hfm] at hnd), hfm]
    | some nm =>
      have hstep : processLine (t, c) l = some (dinsert t nm c, c + 1) :=
        processLine_record (hne l (List.mem_cons_self _ _)) hl
      have hfm : (l :: ls).filterMap lineName = nm :: ls.filterMap lineName :=
        List.filterMap_cons_some hl
      rw [hfm] at hnd
      have hknotin : nm ∉ keysOf t := fun hmem =>
        (List.nodup_append.mp hnd).2.2 hmem (List.mem_cons_self _ _)
      simp only [processLines, hstep]
      rw [dinsert_append hknotin,
        ih (t ++ [(nm, c)]) (c + 1) (fun x hx => hne x (List.mem_cons_of_mem _ hx))
          (by simpa [keysOf, List.append_assoc] using hnd), hfm]
      simp only [numberFrom, List.length_cons, List.append_assoc, List.cons_append,
        List.nil_append, Option.some.injEq, Prod.mk.injEq]
      constructor
      · trivial
      · push_cast
        ring

/-! ## Claim C5: implicit numbering of assignment-free bodies -/

/-- C5, counterexample.  An enum body with no assignment token but a
repeated member name does not yield the value sequence 0,1,2,…: the
second occurrence of `A` overwrites the first in the dict, so the
recorded member `A` ends with value 1, not 0. -/
theorem c5_counterexample :
    parse_enum ("typedef enum E \x7b\nA,\nA\n\x7d E;".toList) ("E".toList) =
      some [("A".toList, 1)] ∧
    '=' ∉ ("typedef enum E \x7b\nA,\nA\n\x7d E;".toList) ∧
    [("A".toList, (1 : Int))].map Prod.snd ≠ [(0 : Int)] := by
  refine ⟨by decide, by decide, by decide⟩

/-- C5, amended: for every enum body found in the header in which no member
line contains an assignment token and the recorded member names are
pairwise distinct, `parse_enum` assigns the recorded members the values
0, 1, 2, … in declaration order. -/
theorem c5_implicit_numbering (hdr ename body : List Char)
    (hb : findEnumBody ename hdr = some body)
    (hne : ∀ l ∈ pySplit '\n' body, '=' ∉ cleanB (pyStrip l))
    (hnd : (memberNames body).Nodup) :
    parse_enum hdr ename = some (numberFrom 0 (memberNames body)) := by
  unfold parse_enum
  rw [hb]
  show Option.map Prod.fst (processLines ([], 0) (pySplit '\n' body)) = _
  rw [processLines_members (pySplit '\n' body) [] 0 hne (by simpa [keysOf] using hnd)]
  simp [memberNames]

/-- C5, witness at a concrete header. -/
theorem c5_witness :
    parse_enum ("typedef enum F \x7b\nX,\nY\n\x7d F;".toList) ("F".toList) =
      some [("X".toList, 0), ("Y".toList, 1)] := by
  have h := c5_implicit_numbering ("typedef enum F \x7b\nX,\nY\n\x7d F;".toList) ("F".toList)
    ("\nX,\nY\n".toList) (by decide) (by decide) (by decide)
  exact h.trans (by decide)

/-! ## Claim C7: sentinel members never reach the table -/

theorem mem_dinsert {p : List Char × Int} {t : Table} {k : List Char} {v : Int}
    (h : p ∈ dinsert t k v) : p ∈ t ∨ p = (k, v) := by
  induction t with
  | nil =>
    simp only [dinsert, List.mem_singleton] at h
    exact Or.inr h
  | cons q t ih =>
    obtain ⟨k', v'⟩ := q
    simp only [dinsert] at h
    by_cases hk : k' = k
    · rw [if_pos hk] at h
      rcases List.mem_cons.mp h with h1 | h1
      · exact Or.inr h1
      · exact Or.inl (List.mem_cons_of_mem _ h1)
    · rw [if_neg hk] at h
      rcases List.mem_cons.mp h with h1 | h1
      · exact Or.inl (h1 ▸ List.mem_cons_self _ _)
      · rcases ih h1 with h2 | h2
        · exact Or.inl (List.mem_cons_of_mem _ h2)
        · exact Or.inr h2

theorem recordStep_no_forceint {t : Table} {name : List Char} {cv : Int}
    (hinv : ∀ p ∈ t, pyEndsWith p.1 ("FORCEINT".toList) = false) :
    ∀ p ∈ (recordStep t name cv).1, pyEndsWith p.1 ("FORCEINT".toList) = false := by
  intro p hp
  simp only [recordStep] at hp
  by_cases hc : name ≠ [] ∧ pyEndsWith name ("FORCEINT".toList) = false
  · rw [if_pos hc] at hp
    rcases mem_dinsert hp with h | h
    · exact hinv p h
    · rw [h]
      exact hc.2
  · rw [if_neg hc] at hp
    exact hinv p hp

theorem processLine_no_forceint {st : Table × Int} {l : List Char} {st' : Table × Int}
    (h : processLine st l = some st')
    (hinv : ∀ p ∈ st.1, pyEndsWith p.1 ("FORCEINT".toList) = false) :
    ∀ p ∈ st'.1, pyEndsWith p.1 ("FORCEINT".toList) = false := by
  unfold processLine at h
  dsimp only [] at h
  by_cases h1 : pyStrip l = [] ∨ ("//".toList).isPrefixOf (pyStrip l) ∨
      ("/*".toList).isPrefixOf (pyStrip l)
  · rw [if_pos h1] at h
    obtain rfl := Option.some.inj h
    exact hinv
  · rw [if_neg h1] at h
    by_cases h2 : cleanB (pyStrip l) = [] ∨ cleanB (pyStrip l) = ['}']
    · rw [if_pos h2] at h
      obtain rfl := Option.some.inj h
      exact hinv
    · rw [if_neg h2] at h
      by_cases h3 : '=' ∈ cleanB (pyStrip l)
      · rw [if_pos h3] at h
        by_cases h4 : ("0x".toList).isPrefixOf
            (pyStrip ((pySplit '=' (cleanB (pyStrip l))).getD 1 []))
        · rw [if_pos h4] at h
          cases h5 : pyInt 16 (pyStrip ((pySplit '=' (cleanB (pyStrip l))).getD 1 [])) with
          | none => rw [h5] at h; cases h
          | some v =>
            rw [h5] at h
            obtain rfl := Option.some.inj h
            exact recordStep_no_forceint hinv
        · rw [if_neg h4] at h
          by_cases h6 : containsSub ("<<".toList)
              (pyStrip ((pySplit '=' (cleanB (pyStrip l))).getD 1 []))
          · rw [if_pos h6] at h
            rcases h7 : splitLtLt (pyStrip ((pySplit '=' (cleanB (pyStrip l))).getD 1 []))
              with _ | ⟨b, _ | ⟨s2, _ | ⟨r3, rr⟩⟩⟩
            · rw [h7] at h; cases h
            · rw [h7] at h; cases h
            · rw [h7] at h
              dsimp only [] at h
              cases h8 : pyInt 10 (pyStrip b) with
              | none => rw [h8] at h; cases h
              | some bv =>
                rw [h8] at h
                cases h9 : pyInt 10 (pyStrip s2) with
                | none => rw [h9] at h; cases h
                | some sv =>
                  rw [h9] at h
                  dsimp only [] at h
                  by_cases h10 : sv < 0
                  · rw [if_pos h10] at h; cases h
                  · rw [if_neg h10] at h
                    obtain rfl := Option.some.inj h
                    exact recordStep_no_forceint hinv
            · rw [h7] at h; cases h
          · rw [if_neg h6] at h
            cases h8 : pyInt 10 (pyStrip ((pySplit '=' (cleanB (pyStrip l))).getD 1 [])) with
            | none =>
              rw [h8] at h
              obtain rfl := Option.some.inj h
              exact hinv
            | some v =>
              rw [h8] at h
              obtain rfl := Option.some.inj h
              exact recordStep_no_forceint hinv
      · rw [if_neg h3] at h
        obtain rfl := Option.some.inj h
        exact recordStep_no_forceint hinv

theorem processLines_no_forceint : ∀ (lines : List (List Char)) (st st' : Table × Int),
    processLines st lines = some st' →
    (∀ p ∈ st.1, pyEndsWith p.1 ("FORCEINT".toList) = false) →
    ∀ p ∈ st'.1, pyEndsWith p.1 ("FORCEINT".toList) = false := by
  intro lines
  induction lines with
  | nil =>
    intro st st' h hinv
    simp only [processLines] at h
    injection h with h2
    subst h2
    exact hinv
  | cons l ls ih =>
    intro st st' h hinv
    simp only [processLines] at h
    cases hpl : processLine st l with
    | none => rw [hpl] at h; cases h
    | some st1 =>
      rw [hpl] at h
      exact ih st1 st' h (processLine_no_forceint hpl hinv)

/-- C7: whenever `parse_enum` returns a table, no member whose name ends
with the forced-width sentinel suffix `FORCEINT` is present in it,
regardless of its position in the enum body. -/
theorem c7_no_forceint (hdr ename : List Char) (tb : Table)
    (h : parse_enum hdr ename = some tb) :
    ∀ p ∈ tb, pyEndsWith p.1 ("FORCEINT".toList) = false := by
  unfold parse_enum at h
  cases hb : findEnumBody ename hdr with
  | none =>
    rw [hb] at h
    change some ([] : Table) = some tb at h
    injection h with h2
    subst h2
    intro p hp
    simp at hp
  | some body =>
    rw [hb] at h
    change Option.map Prod.fst (processLines ([], 0) (pySplit '\n' body)) = some tb at h
    cases hpl : processLines ([], 0) (pySplit '\n' body) with
    | none => rw [hpl] at h; cases h
    | some st =>
      rw [hpl] at h
      simp only [Option.map_some'] at h
      injection h with h2
      subst h2
      exact processLines_no_forceint _ _ _ hpl (by intro p hp; simp at hp)

/-- C7, witness: a concrete header with a sentinel member. -/
theorem c7_witness :
    ([(("A".toList : List Char), (0 : Int))].all
      (fun p => !(pyEndsWith p.1 ("FORCEINT".toList)))) = true := by
  have h := c7_no_forceint ("typedef enum E \x7b\nA,\nE_FORCEINT\n\x7d E;".toList) ("E".toList)
    [("A".toList, 0)] (by decide)
  rw [List.all_eq_true]
  intro p hp
  simpa using h p hp

/-! ## Claim C3, amended: how the version symbol is actually emitted -/

/-- C3, amended: whenever `FMOD_VERSION` is present in the merged table it
is emitted first, under the `Version` category header, with the hardcoded
annotation `// 2.03.09`; its literal follows the same magnitude rules as
any other non-flag symbol (hexadecimal exactly when the value is at least
`0x100`, plain decimal below that), not unconditional hexadecimal. -/
theorem c3_version_emission (table : Table) (v : Int)
    (h : lookupC table ("FMOD_VERSION".toList) = some v) :
    emitLines table =
      ("    // Version".toList) ::
        declLine ("Version".toList) ("FMOD_VERSION".toList) v :: [] :: emitTail table ∧
    formatValue ("Version".toList) v =
      (if (0x100 : Int) ≤ v then pyHex8 v else decStr v) := by
  constructor
  · have hcm : catMembers table ("Version".toList) = ["FMOD_VERSION".toList] := by
      unfold catMembers
      rw [if_pos rfl]
    have hlook : Option.map (declLine ("Version".toList) ("FMOD_VERSION".toList))
        (lookupC table ("FMOD_VERSION".toList)) =
        some (declLine ("Version".toList) ("FMOD_VERSION".toList) v) := by
      rw [h]
      rfl
    have hec : emitCat table ("Version".toList) =
        ["    // Version".toList,
         declLine ("Version".toList) ("FMOD_VERSION".toList) v, []] := by
      unfold emitCat
      rw [hcm]
      rw [if_neg (by simp)]
      rw [List.filterMap_cons]
      rw [hlook]
      rw [show ("    // ".toList ++ "Version".toList : List Char) = "    // Version".toList
        from by decide]
      rfl
    have hsplitcats : emitLines table = emitCat table ("Version".toList) ++ emitTail table := by
      unfold emitLines emitTail categoryOrder
      rw [List.flatMap_cons]
      rfl
    rw [hsplitcats, hec]
    rfl
  · unfold formatValue
    by_cases h1 : (0x1000000 : Int) ≤ v
    · rw [if_pos h1, if_pos (by omega)]
    · rw [if_neg h1]
      by_cases h2 : (0x100 : Int) ≤ v
      · rw [if_pos h2, if_pos h2]
      · rw [if_neg h2, if_neg h2, if_neg (by decide : ¬ ("Version".toList ∈ flagCats))]

/-- C3, amended claim witness at a concrete table (`0x00020309`, the real
FMOD version value). -/
theorem c3_witness :
    emitLines [("FMOD_VERSION".toList, 131849)] =
      ("    // Version".toList) ::
        declLine ("Version".toList) ("FMOD_VERSION".toList) 131849 ::
          [] :: emitTail [("FMOD_VERSION".toList, 131849)] ∧
    formatValue ("Version".toList) 131849 =
      (if (0x100 : Int) ≤ (131849 : Int) then pyHex8 131849 else decStr 131849) :=
  c3_version_emission [("FMOD_VERSION".toList, 131849)] 131849 (by decide)

/-! ## Claim C9: configured names absent from the table -/

theorem mem_emitTriples {table : Table} {tr : List Char × List Char × List Char}
    (h : tr ∈ emitTriples table) :
    ∃ cat n v, cat ∈ categoryOrder ∧ n ∈ catMembers table cat ∧
      lookupC table n = some v ∧ tr = (cat, n, formatValue cat v) := by
  simp only [emitTriples, List.mem_flatMap, List.mem_filterMap, Option.map_eq_some'] at h
  obtain ⟨cat, hcat, n, hn, v, hv, htr⟩ := h
  exact ⟨cat, n, v, hcat, hn, hv, htr.symm⟩

/-- C9: a name that is absent from the merged table contributes no
`(category, name, literal)` triple to the emitted output — the emission
loop's `name not in all_constants` guard simply skips it — and in
particular, when the version symbol is missing the output contains no
`Version` declaration at all. -/
theorem c9_absent_name_not_emitted (table : Table) (n : List Char)
    (h : lookupC table n = none) :
    (∀ tr ∈ emitTriples table, tr.2.1 ≠ n) ∧
    (n = "FMOD_VERSION".toList → ∀ tr ∈ emitTriples table, tr.1 ≠ "Version".toList) := by
  constructor
  · intro tr htr he
    obtain ⟨cat, n', v, _, _, hv, htr2⟩ := mem_emitTriples htr
    rw [htr2] at he
    dsimp only [] at he
    rw [he] at hv
    rw [h] at hv
    cases hv
  · rintro rfl tr htr he
    obtain ⟨cat, n', v, hcat, hn', hv, htr2⟩ := mem_emitTriples htr
    rw [htr2] at he
    dsimp only [] at he
    subst he
    unfold catMembers at hn'
    rw [if_pos rfl] at hn'
    simp only [List.mem_singleton] at hn'
    subst hn'
    rw [h] at hv
    cases hv

/-- C9, witness at a concrete table without the version symbol. -/
theorem c9_witness :
    ((emitTriples [("FMOD_OK".toList, (0 : Int))]).all
      (fun tr => !(tr.2.1 == "FMOD_VERSION".toList) && !(tr.1 == "Version".toList))) = true := by
  have h := c9_absent_name_not_emitted [("FMOD_OK".toList, (0 : Int))]
    ("FMOD_VERSION".toList) (by decide)
  rw [List.all_eq_true]
  intro tr htr
  have h1 := h.1 tr htr
  have h2 := h.2 rfl tr htr
  simp
  exact ⟨h1, h2⟩

end FmodGen
